import Mathlib

set_option autoImplicit false

/-!
Verification of the macro-decorators property-decoration library.

The library's core is a dotted-path resolver (`getPath` / `getPaths` /
`setPath`), an accessor synthesizer (the default-exported decorator factory),
and about twenty-five derived property macros (aliasing, boolean combinators,
array transforms).  This file gives a shallow embedding of that code over an
inductive universe of JavaScript values and proves the behavioural claims
about it.

Modelling conventions:
* `JSVal` is a structural value universe.  Plain objects and map-like
  containers (objects exposing callable `get`/`set` members, such as `Map`)
  are separate constructors, following the duck-typed capability check
  `typeof current.get === 'function'` in the resolver.
* Machine numbers are modelled as `Int`, plus explicit `negInf` / `posInf`
  values for the zero-argument extrema of `Math.max` / `Math.min`.  Floating
  point subtleties (NaN, -0) are outside the verified claims.
* Fallible operations (member assignment on a nullish container, calling an
  array method on a non-array) return `Option`; `none` models a thrown
  `TypeError`.
* Mutation is modelled by state passing: `setPath` returns the updated root
  object, and in-place array methods return the receiver's new content
  alongside their result.
* `ref` models a reference to a heap-allocated object; a small counter-based
  heap (`JSHeap`) makes object identity observable where a claim is about
  allocation freshness.  Inline composite literals do not carry identity, so
  JavaScript's reference equality `===` is modelled as `false` on them.
-/

/-- Universe of JavaScript values used by the library. -/
inductive JSVal where
  | undef
  | null
  | bool (b : Bool)
  | num (n : Int)
  | negInf
  | posInf
  | str (s : String)
  | obj (fields : List (String × JSVal))
  | arr (elems : List JSVal)
  | mapC (entries : List (String × JSVal))
  | ref (id : Nat)

/-- First-match association-list lookup; a missing key reads as `undefined`,
as JavaScript member access does. -/
def assocGet : List (String × JSVal) → String → JSVal
  | [], _ => JSVal.undef
  | (k, v) :: rest, key => if k = key then v else assocGet rest key

/-- Association-list update: overwrite the first matching key, else append
(JavaScript objects keep the insertion position of an existing key). -/
def assocSet : List (String × JSVal) → String → JSVal → List (String × JSVal)
  | [], key, v => [(key, v)]
  | (k, w) :: rest, key, v =>
    if k = key then (key, v) :: rest else (k, w) :: assocSet rest key v

/-- Direct member lookup `v[key]`.  Member access on values other than plain
objects (numeric array indices, `length`, boxed primitives) is not exercised
by the verified claims and reads as `undefined`. -/
def getMember (v : JSVal) (key : String) : JSVal :=
  match v with
  | .obj fields => assocGet fields key
  | _ => JSVal.undef

/-- `String.prototype.split` with the one-character separator `'.'`,
implemented structurally over the character list.  Always returns at least
one (possibly empty) segment, exactly like the JavaScript original. -/
def splitOnDot : List Char → List (List Char)
  | [] => [[]]
  | c :: rest =>
    if c = '.' then [] :: splitOnDot rest
    else
      match splitOnDot rest with
      | [] => [[c]]
      | seg :: more => (c :: seg) :: more

/-- `path.split('.')` from the source. -/
def pathSegments (p : String) : List String :=
  (splitOnDot p.toList).map (fun cs => String.mk cs)

/-- `value === null || value === undefined`. -/
def isNullish : JSVal → Bool
  | JSVal.undef => true
  | .null => true
  | _ => false

/-- The segment loop of `getPath`: break out as soon as `current` is nullish,
otherwise step through `current.get(segment)` for a container with a callable
`get` member, and through `current[segment]` otherwise. -/
def getPathSegs (current : JSVal) (segs : List String) : JSVal :=
  match segs, current with
  | [], cur => cur
  | _ :: _, JSVal.undef => JSVal.undef
  | _ :: _, .null => .null
  | seg :: rest, .mapC entries => getPathSegs (assocGet entries seg) rest
  | seg :: rest, cur => getPathSegs (getMember cur seg) rest

/-- `getPath(obj, path)` from `src/utils/index.ts`. -/
def getPath (o : JSVal) (p : String) : JSVal :=
  getPathSegs o (pathSegments p)

/-- `getPaths(obj, paths)`: resolve each path independently, in order. -/
def getPaths (o : JSVal) (ps : List String) : List JSVal :=
  ps.map (fun p => getPath o p)

/-- The duck-typed capability check `typeof current.get === 'function'`. -/
def hasCallableGet : JSVal → Bool
  | .mapC _ => true
  | _ => false

/-- Invocation `current.get(segment)` on a map-like container. -/
def callGet : JSVal → String → JSVal
  | .mapC entries, seg => assocGet entries seg
  | _, _ => JSVal.undef

/-- Modelled from the spec: one step of `resolve` — stop on a nullish
current value, else use the callable `get` member when the value exposes
one, else direct member lookup. -/
def specStep (current : JSVal) (seg : String) : JSVal :=
  if isNullish current then current
  else if hasCallableGet current then callGet current seg
  else getMember current seg

/-- Modelled from the spec: `resolve(root, path)` splits the path on `'.'`
and folds `specStep` over the segments in order. -/
def specResolve (root : JSVal) (p : String) : JSVal :=
  (pathSegments p).foldl specStep root

/-- Split a list into its leading part and final element.  This mirrors the
`path.substr(0, path.lastIndexOf('.'))` / `path.substr(lastIndexOf + 1)`
decomposition in `setPath`: the leading part is the container path's
segments, the final element is the key written at the end. -/
def splitLast {α : Type} : List α → Option (List α × α)
  | [] => none
  | [a] => some ([], a)
  | a :: b :: rest =>
    match splitLast (b :: rest) with
    | some (lead, last) => some (a :: lead, last)
    | none => none

/-- The assignment step of `setPath`: `resolvedObj.set(key, value)` when the
container has a callable `set` member, else `resolvedObj[key] = value`.
`none` models the `TypeError` thrown when the container is `null` or
`undefined` (and, in strict mode, when it is a primitive; expando properties
on arrays are not exercised by the claims). -/
def setMember (recv : JSVal) (key : String) (v : JSVal) : Option JSVal :=
  match recv with
  | .mapC entries => some (.mapC (assocSet entries key v))
  | .obj fields => some (.obj (assocSet fields key v))
  | _ => none

/-- Navigate the container path exactly as `getPath` does and perform the
final assignment, rebuilding the (pure) object tree along the way.  A
nullish or primitive intermediate makes the final container nullish, so the
assignment faults (`none`), matching the JavaScript behaviour. -/
def setPathSegs (root : JSVal) (segs : List String) (key : String) (v : JSVal) :
    Option JSVal :=
  match segs, root with
  | [], root => setMember root key v
  | seg :: rest, .obj fields =>
    match setPathSegs (assocGet fields seg) rest key v with
    | some child => some (.obj (assocSet fields seg child))
    | none => none
  | seg :: rest, .mapC entries =>
    match setPathSegs (assocGet entries seg) rest key v with
    | some child => some (.mapC (assocSet entries seg child))
    | none => none
  | _ :: _, _ => none

/-- `setPath(obj, path, value)` from `src/utils/index.ts`: split the path at
its last `'.'`; when the part before the last dot is the empty string (no
dot at all, or a single leading dot) the container is the root itself,
otherwise it is resolved with `getPath`.  Returns the updated root, or
`none` for a thrown `TypeError`. -/
def setPath (root : JSVal) (p : String) (v : JSVal) : Option JSVal :=
  match splitLast (pathSegments p) with
  | none => none
  | some (objSegs, key) =>
    if objSegs = [] ∨ objSegs = [""] then setMember root key v
    else setPathSegs root objSegs key v

/-- The container object that `setPath` performs its assignment on:
`objPath ? getPath(obj, objPath) : obj` from the source. -/
def resolvedContainer (o : JSVal) (p : String) : JSVal :=
  match splitLast (pathSegments p) with
  | none => o
  | some (objSegs, _) =>
    if objSegs = [] ∨ objSegs = [""] then o
    else getPathSegs o objSegs

/-- A value member assignment can land on: a plain object or a map-like
container. -/
def isObjLike : JSVal → Bool
  | .obj _ => true
  | .mapC _ => true
  | _ => false

/-- JavaScript truthiness (`Boolean(v)`). -/
def truthy : JSVal → Bool
  | JSVal.undef => false
  | .null => false
  | .bool b => b
  | .num n => n != 0
  | .negInf => true
  | .posInf => true
  | .str s => s != ""
  | .obj _ => true
  | .arr _ => true
  | .mapC _ => true
  | .ref _ => true

/-- JavaScript strict equality `===` (also `Set` membership, which uses
SameValueZero).  Primitives compare structurally; heap references compare by
identity; inline composite literals are distinct objects and never compare
equal. -/
def jsStrictEq : JSVal → JSVal → Bool
  | JSVal.undef, JSVal.undef => true
  | .null, .null => true
  | .bool a, .bool b => a == b
  | .num a, .num b => a == b
  | .negInf, .negInf => true
  | .posInf, .posInf => true
  | .str a, .str b => a == b
  | .ref a, .ref b => a == b
  | _, _ => false

/-- JavaScript `a && b`: `a` when falsy, else `b`. -/
def jsAnd (a b : JSVal) : JSVal := if truthy a then b else a

/-- JavaScript `a || b`: `a` when truthy, else `b`. -/
def jsOr (a b : JSVal) : JSVal := if truthy a then a else b

/-- The getter of `and(...paths)`:
`getPaths(obj, paths).reduce((a, b) => a && b, true)`. -/
def andMacro (o : JSVal) (ps : List String) : JSVal :=
  (getPaths o ps).foldl jsAnd (.bool true)

/-- The getter of `or(...paths)`:
`getPaths(obj, paths).reduce((a, b) => a || b, false)`. -/
def orMacro (o : JSVal) (ps : List String) : JSVal :=
  (getPaths o ps).foldl jsOr (.bool false)

/-- The getter of `collect(...paths)`: `getPaths(obj, paths)`, the resolved
values verbatim in path order. -/
def collectMacro (o : JSVal) (ps : List String) : JSVal :=
  .arr (getPaths o ps)

/-- `getArray(obj, path)`: `getPath(obj, path) || []` — a falsy resolved
value (in particular `null`/`undefined`) becomes the empty array. -/
def getArray (o : JSVal) (p : String) : JSVal :=
  if truthy (getPath o p) then getPath o p else .arr []

/-- `getArrays(obj, paths)`. -/
def getArrays (o : JSVal) (ps : List String) : List JSVal :=
  ps.map (fun p => getArray o p)

/-- View a value as an array in order to call an array method on it;
`none` models the `TypeError` raised on a non-array receiver. -/
def asArrayList : JSVal → Option (List JSVal)
  | .arr l => some l
  | _ => none

/-- All operands of a multi-array macro, each viewed as an array. -/
def getArrayLists : JSVal → List String → Option (List (List JSVal))
  | _, [] => some []
  | o, p :: ps =>
    match asArrayList (getArray o p), getArrayLists o ps with
    | some l, some ls => some (l :: ls)
    | _, _ => none

/-- `Set` membership over our values (SameValueZero, via `jsStrictEq`). -/
def memVal (v : JSVal) (l : List JSVal) : Bool :=
  l.any (fun w => jsStrictEq w v)

/-- `arr.forEach(v => set.add(v))` on a set represented as a
first-occurrence list. -/
def addAll (acc : List JSVal) (l : List JSVal) : List JSVal :=
  l.foldl (fun a v => if memVal v a then a else a ++ [v]) acc

/-- Insertion-ordered union of several arrays (the body of `union`). -/
def unionList (ls : List (List JSVal)) : List JSVal :=
  ls.foldl addAll []

/-- The getter of `union(...paths)`. -/
def unionMacro (o : JSVal) (ps : List String) : Option JSVal :=
  match getArrayLists o ps with
  | some ls => some (.arr (unionList ls))
  | none => none

/-- `unique(path)` is `union(path)` in the source. -/
def uniqueMacro (o : JSVal) (p : String) : Option JSVal :=
  unionMacro o [p]

/-- The getter of `filter(path, fn)`: `getArray(obj, path).filter(fn)`.  The
predicate is modelled on the element argument, with its JavaScript result
already coerced to a boolean. -/
def filterMacro (o : JSVal) (p : String) (fn : JSVal → Bool) : Option JSVal :=
  (asArrayList (getArray o p)).map (fun l => JSVal.arr (l.filter fn))

/-- `filterBy(path, key, value?)`: when `value !== undefined`, filter by
`v[key] === value`; otherwise filter by `Boolean(v[key])`.  An omitted third
argument reaches the body as `undefined`, i.e. as `JSVal.undef` here. -/
def filterByMacro (o : JSVal) (p : String) (key : String) (value : JSVal) :
    Option JSVal :=
  if !(jsStrictEq value JSVal.undef) then
    filterMacro o p (fun v => jsStrictEq (getMember v key) value)
  else
    filterMacro o p (fun v => truthy (getMember v key))

/-- The getter of `map(path, fn)`: `getArray(obj, path).map(fn)`. -/
def mapMacro (o : JSVal) (p : String) (f : JSVal → JSVal) : Option JSVal :=
  (asArrayList (getArray o p)).map (fun l => JSVal.arr (l.map f))

/-- `mapBy(path, key)` is `map(path, v => v[key])`. -/
def mapByMacro (o : JSVal) (p : String) (key : String) : Option JSVal :=
  mapMacro o p (fun v => getMember v key)

/-- JavaScript `<` restricted to the comparisons the claims exercise:
numbers (with the infinities) and strings. -/
def jsLt : JSVal → JSVal → Bool
  | .num a, .num b => a < b
  | .str a, .str b => a < b
  | .negInf, .num _ => true
  | .negInf, .posInf => true
  | .num _, .posInf => true
  | _, _ => false

/-- JavaScript `>`. -/
def jsGt (a b : JSVal) : Bool := jsLt b a

/-- One comparison step of `Math.max`. -/
def jsNumMax (a b : JSVal) : JSVal := if jsLt a b then b else a

/-- One comparison step of `Math.min`. -/
def jsNumMin (a b : JSVal) : JSVal := if jsLt b a then b else a

/-- `Math.max(...l)`: fold from the zero-argument extremum `-Infinity`. -/
def mathMaxList (l : List JSVal) : JSVal := l.foldl jsNumMax .negInf

/-- `Math.min(...l)`: fold from the zero-argument extremum `Infinity`. -/
def mathMinList (l : List JSVal) : JSVal := l.foldl jsNumMin .posInf

/-- The getter of `max(path)`: `Math.max(...getArray(obj, path))`. -/
def maxMacro (o : JSVal) (p : String) : Option JSVal :=
  (asArrayList (getArray o p)).map (fun l => mathMaxList l)

/-- The getter of `min(path)`: `Math.min(...getArray(obj, path))`. -/
def minMacro (o : JSVal) (p : String) : Option JSVal :=
  (asArrayList (getArray o p)).map (fun l => mathMinList l)

/-- The getter of `diff(...paths)`: the first array minus the members of
every subsequent array. -/
def diffMacro (o : JSVal) (ps : List String) : Option JSVal :=
  match ps with
  | [] => some (.arr [])
  | _ :: _ =>
    match getArrayLists o ps with
    | none => none
    | some [] => some (.arr [])
    | some (first :: rest) =>
      some (.arr (rest.foldl (fun acc l => acc.filter (fun v => !(memVal v l))) first))

/-- The getter of `intersect(...paths)`: the elements of the first array
present in every subsequent array. -/
def intersectMacro (o : JSVal) (ps : List String) : Option JSVal :=
  match ps with
  | [] => some (.arr [])
  | _ :: _ =>
    match getArrayLists o ps with
    | none => none
    | some [] => some (.arr [])
    | some (first :: rest) =>
      some (.arr (rest.foldl (fun acc l => acc.filter (fun v => memVal v l)) first))

/-- Stable insertion used to model `Array.prototype.sort` with a
comparator. -/
def insertCmp (cmp : JSVal → JSVal → Int) (x : JSVal) : List JSVal → List JSVal
  | [] => [x]
  | y :: ys => if cmp x y < 0 then x :: y :: ys else y :: insertCmp cmp x ys

/-- The ordering produced by `Array.prototype.sort(cmp)` (stable, as
specified since ES2019). -/
def sortList (cmp : JSVal → JSVal → Int) (l : List JSVal) : List JSVal :=
  l.foldl (fun acc x => insertCmp cmp x acc) []

/-- `receiver.slice()`: returns a fresh copy of the receiver's content and
leaves the receiver's content unchanged — the pair is
`(returned copy, receiver content after the call)`. -/
def jsSliceCall (receiver : List JSVal) : List JSVal × List JSVal :=
  (receiver, receiver)

/-- `receiver.sort(cmp)`: sorts the receiver in place and returns it — the
pair is `(returned array, receiver content after the call)`, both the sorted
content. -/
def jsSortCall (cmp : JSVal → JSVal → Int) (receiver : List JSVal) :
    List JSVal × List JSVal :=
  (sortList cmp receiver, sortList cmp receiver)

/-- The effect of one `sort` macro read on the source array:
`source.slice().sort(cmp)` — slice the source, sort the copy in place.
Returns `(value produced, source content after the read)`. -/
def sortMacroEffect (cmp : JSVal → JSVal → Int) (source : List JSVal) :
    List JSVal × List JSVal :=
  ((jsSortCall cmp (jsSliceCall source).1).1, (jsSliceCall source).2)

/-- The getter of `sort(path, fn)`:
`getArray(obj, path).slice().sort(fn)`. -/
def sortMacro (o : JSVal) (p : String) (cmp : JSVal → JSVal → Int) :
    Option JSVal :=
  (asArrayList (getArray o p)).map (fun l => JSVal.arr (sortMacroEffect cmp l).1)

/-- The comparator `sortBy(path, key, asc)` hands to `sort`. -/
def sortByCmp (key : String) (asc : Bool) (a b : JSVal) : Int :=
  if jsLt (getMember a key) (getMember b key) then (if asc then -1 else 1)
  else if jsGt (getMember a key) (getMember b key) then (if asc then 1 else -1)
  else 0

/-- `sortBy(path, key, asc = true)` is `sort(path, sortByCmp key asc)`. -/
def sortByMacro (o : JSVal) (p : String) (key : String) (asc : Bool) :
    Option JSVal :=
  sortMacro o p (sortByCmp key asc)

/-- JavaScript `+` on the numeric values `sum` folds over; non-numeric
addition (string concatenation, coercions) is outside the claims. -/
def jsAdd : JSVal → JSVal → JSVal
  | .num a, .num b => .num (a + b)
  | _, _ => JSVal.undef

/-- The getter of `sum(path)`:
`getArray(obj, path).reduce((s, v) => s + v, 0)`. -/
def sumMacro (o : JSVal) (p : String) : Option JSVal :=
  (asArrayList (getArray o p)).map (fun l => l.foldl jsAdd (.num 0))

/-- The `forEach` loop of `uniqueBy`: keep an element when its key value has
not been seen before. -/
def uniqueByGo (key : String) (seen : List JSVal) : List JSVal → List JSVal
  | [] => []
  | v :: rest =>
    if memVal (getMember v key) seen then uniqueByGo key seen rest
    else v :: uniqueByGo key (seen ++ [getMember v key]) rest

/-- The getter of `uniqueBy(path, key)`. -/
def uniqueByMacro (o : JSVal) (p : String) (key : String) : Option JSVal :=
  (asArrayList (getArray o p)).map (fun l => JSVal.arr (uniqueByGo key [] l))

/-- An argument to the decorator factory: either a bare getter function, or
a descriptor with optional getter and setter.  Setters are state passing:
they return the updated instance. -/
inductive MacroDef where
  | getterFn (g : JSVal → String → JSVal)
  | descriptor (getterOpt : Option (JSVal → String → JSVal))
      (setterOpt : Option (JSVal → String → JSVal → JSVal))

/-- The property descriptor the decorator installs on a field: `get` is
present exactly when the definition had a getter, `set` exactly when it had
a setter. -/
structure PropertyDesc where
  getOp : Option (JSVal → JSVal)
  setOp : Option (JSVal → JSVal → JSVal)

/-- The decorator factory from `src/index.ts`: normalize the definition to a
`(getter, setter)` pair (a bare function is a getter with no setter), then
build the descriptor for field `key`, closing over the key and forwarding
the instance. -/
def synthesizeDesc (defn : MacroDef) (key : String) : PropertyDesc :=
  match defn with
  | .getterFn g => ⟨some (fun self => g self key), none⟩
  | .descriptor getterOpt setterOpt =>
    ⟨getterOpt.map (fun g => fun self => g self key),
     setterOpt.map (fun s => fun self v => s self key v)⟩

/-- Host-language read of an accessor property: invoke `get` when present,
otherwise the read yields `undefined` (and has no effect). -/
def readProp (d : PropertyDesc) (self : JSVal) : JSVal :=
  match d.getOp with
  | some g => g self
  | none => JSVal.undef

/-- Host-language write of an accessor property: invoke `set` when present;
a missing `set` is the "no setter" `TypeError` of strict mode, modelled as
`none`. -/
def writeProp (d : PropertyDesc) (self : JSVal) (v : JSVal) : Option JSVal :=
  match d.setOp with
  | some s => some (s self v)
  | none => none

/-- A counter-based heap, used where object identity (allocation freshness)
is observable. -/
structure JSHeap where
  next : Nat
  entries : List (Nat × JSVal)

/-- Allocate a new object: a fresh reference pointing at `v`. -/
def heapAlloc (h : JSHeap) (v : JSVal) : JSVal × JSHeap :=
  (.ref h.next, ⟨h.next + 1, (h.next, v) :: h.entries⟩)

/-- Dereference a heap address. -/
def heapFind (entries : List (Nat × JSVal)) (r : Nat) : Option JSVal :=
  match entries with
  | [] => none
  | (k, v) :: rest => if k = r then some v else heapFind rest r

/-- The default-value function `() => []` used with `reads`: every call
allocates a fresh empty array. -/
def freshEmptyArray (h : JSHeap) : JSVal × JSHeap :=
  heapAlloc h (.arr [])

/-- The optional second argument of `reads`: a plain default value, or a
default-value function (`typeof defaultValue === 'function'`). -/
inductive ReadsDefault where
  | value (v : JSVal)
  | fnDefault (f : JSHeap → JSVal × JSHeap)

/-- One read through the getter `reads(path, defaultValue)` installs:
resolve the path; when the value is nullish, replace it by the default —
calling the default when it is a function — and return it. -/
def readsRead (p : String) (dflt : ReadsDefault) (o : JSVal) (h : JSHeap) :
    JSVal × JSHeap :=
  if isNullish (getPath o p) then
    match dflt with
    | .fnDefault f => f h
    | .value w => (w, h)
  else (getPath o p, h)


/-! ## Helper lemmas -/

theorem getPathSegs_nullish {v : JSVal} (hv : isNullish v = true) :
    ∀ segs : List String, getPathSegs v segs = v := by
  intro segs
  cases segs with
  | nil => rfl
  | cons s rest =>
    cases v with
    | undef => rfl
    | null => rfl
    | bool b => simp [isNullish] at hv
    | num n => simp [isNullish] at hv
    | negInf => simp [isNullish] at hv
    | posInf => simp [isNullish] at hv
    | str s => simp [isNullish] at hv
    | obj f => simp [isNullish] at hv
    | arr l => simp [isNullish] at hv
    | mapC e => simp [isNullish] at hv
    | ref i => simp [isNullish] at hv

theorem getPathSegs_append (xs ys : List String) :
    ∀ o : JSVal, getPathSegs o (xs ++ ys) = getPathSegs (getPathSegs o xs) ys := by
  induction xs with
  | nil => intro o; rfl
  | cons s rest ih =>
    intro o
    cases o with
    | undef =>
      rw [show getPathSegs JSVal.undef (s :: rest) = JSVal.undef from rfl]
      rw [show getPathSegs JSVal.undef ((s :: rest) ++ ys) = JSVal.undef from rfl]
      rw [@getPathSegs_nullish JSVal.undef rfl ys]
    | null =>
      rw [show getPathSegs JSVal.null (s :: rest) = JSVal.null from rfl]
      rw [show getPathSegs JSVal.null ((s :: rest) ++ ys) = JSVal.null from rfl]
      rw [@getPathSegs_nullish JSVal.null rfl ys]
    | mapC entries => exact ih (assocGet entries s)
    | obj fields => exact ih (assocGet fields s)
    | bool b => exact ih (getMember (JSVal.bool b) s)
    | num n => exact ih (getMember (JSVal.num n) s)
    | negInf => exact ih (getMember JSVal.negInf s)
    | posInf => exact ih (getMember JSVal.posInf s)
    | str t => exact ih (getMember (JSVal.str t) s)
    | arr l => exact ih (getMember (JSVal.arr l) s)
    | ref i => exact ih (getMember (JSVal.ref i) s)

theorem assocGet_assocSet (l : List (String × JSVal)) (key : String) (v : JSVal) :
    assocGet (assocSet l key v) key = v := by
  induction l with
  | nil => simp [assocSet, assocGet]
  | cons kv rest ih =>
    obtain ⟨k, w⟩ := kv
    by_cases hk : k = key
    · subst hk
      simp [assocSet, assocGet]
    · simp [assocSet, assocGet, hk]
      exact ih

theorem splitOnDot_ne_nil (cs : List Char) : splitOnDot cs ≠ [] := by
  cases cs with
  | nil => simp [splitOnDot]
  | cons c rest =>
    by_cases hc : c = '.'
    · simp [splitOnDot, hc]
    · simp only [splitOnDot, hc, if_false]
      cases splitOnDot rest with
      | nil => simp
      | cons seg more => simp

theorem pathSegments_ne_nil (p : String) : pathSegments p ≠ [] := by
  unfold pathSegments
  intro h
  exact splitOnDot_ne_nil p.toList (List.map_eq_nil_iff.mp h)

theorem splitLast_eq {α : Type} :
    ∀ (l lead : List α) (last : α), splitLast l = some (lead, last) → l = lead ++ [last] := by
  intro l
  induction l with
  | nil => intro lead last h; simp [splitLast] at h
  | cons a rest ih =>
    intro lead last h
    cases rest with
    | nil =>
      simp [splitLast] at h
      obtain ⟨h1, h2⟩ := h
      subst h1; subst h2; rfl
    | cons b rest2 =>
      rw [show splitLast (a :: b :: rest2) =
        (match splitLast (b :: rest2) with
          | some (lead, last) => some (a :: lead, last)
          | none => none) from rfl] at h
      cases hs : splitLast (b :: rest2) with
      | none => rw [hs] at h; simp at h
      | some pair =>
        obtain ⟨lead2, last2⟩ := pair
        rw [hs] at h
        simp at h
        obtain ⟨h1, h2⟩ := h
        have := ih lead2 last2 hs
        rw [← h1, ← h2, this]
        rfl

theorem splitLast_of_ne_nil {α : Type} :
    ∀ l : List α, l ≠ [] → ∃ lead last, splitLast l = some (lead, last) := by
  intro l
  induction l with
  | nil => intro h; exact absurd rfl h
  | cons a rest ih =>
    intro _
    cases rest with
    | nil => exact ⟨[], a, rfl⟩
    | cons b rest2 =>
      obtain ⟨lead, last, hs⟩ := ih (by simp)
      refine ⟨a :: lead, last, ?_⟩
      rw [show splitLast (a :: b :: rest2) =
        (match splitLast (b :: rest2) with
          | some (lead, last) => some (a :: lead, last)
          | none => none) from rfl, hs]

theorem getPathSegs_eq_foldl (segs : List String) :
    ∀ o : JSVal, getPathSegs o segs = segs.foldl specStep o := by
  induction segs with
  | nil => intro o; rfl
  | cons s rest ih =>
    intro o
    rw [List.foldl_cons, ← ih (specStep o s)]
    cases o with
    | undef =>
      rw [show specStep JSVal.undef s = JSVal.undef from rfl]
      rw [@getPathSegs_nullish JSVal.undef rfl rest]
      rfl
    | null =>
      rw [show specStep JSVal.null s = JSVal.null from rfl]
      rw [@getPathSegs_nullish JSVal.null rfl rest]
      rfl
    | bool b => rfl
    | num n => rfl
    | negInf => rfl
    | posInf => rfl
    | str t => rfl
    | obj fields => rfl
    | arr l => rfl
    | mapC entries => rfl
    | ref i => rfl

theorem setPathSegs_roundtrip (segs : List String) :
    ∀ (root : JSVal) (key : String) (v : JSVal),
      isObjLike (getPathSegs root segs) = true →
      ∃ root', setPathSegs root segs key v = some root' ∧
        getPathSegs root' (segs ++ [key]) = v := by
  induction segs with
  | nil =>
    intro root key v h
    cases root with
    | obj fields =>
      refine ⟨.obj (assocSet fields key v), rfl, ?_⟩
      show getPathSegs (assocGet (assocSet fields key v) key) [] = v
      rw [assocGet_assocSet]; rfl
    | mapC entries =>
      refine ⟨.mapC (assocSet entries key v), rfl, ?_⟩
      show getPathSegs (assocGet (assocSet entries key v) key) [] = v
      rw [assocGet_assocSet]; rfl
    | undef => simp [getPathSegs, isObjLike] at h
    | null => simp [getPathSegs, isObjLike] at h
    | bool b => simp [getPathSegs, isObjLike] at h
    | num n => simp [getPathSegs, isObjLike] at h
    | negInf => simp [getPathSegs, isObjLike] at h
    | posInf => simp [getPathSegs, isObjLike] at h
    | str t => simp [getPathSegs, isObjLike] at h
    | arr l => simp [getPathSegs, isObjLike] at h
    | ref i => simp [getPathSegs, isObjLike] at h
  | cons seg rest ih =>
    intro root key v h
    cases root with
    | obj fields =>
      have h' : isObjLike (getPathSegs (assocGet fields seg) rest) = true := h
      obtain ⟨child, hset, hget⟩ := ih (assocGet fields seg) key v h'
      refine ⟨.obj (assocSet fields seg child), ?_, ?_⟩
      · show (match setPathSegs (assocGet fields seg) rest key v with
          | some child => some (JSVal.obj (assocSet fields seg child))
          | none => none) = some (JSVal.obj (assocSet fields seg child))
        rw [hset]
      · show getPathSegs (assocGet (assocSet fields seg child) seg) (rest ++ [key]) = v
        rw [assocGet_assocSet]
        exact hget
    | mapC entries =>
      have h' : isObjLike (getPathSegs (assocGet entries seg) rest) = true := h
      obtain ⟨child, hset, hget⟩ := ih (assocGet entries seg) key v h'
      refine ⟨.mapC (assocSet entries seg child), ?_, ?_⟩
      · show (match setPathSegs (assocGet entries seg) rest key v with
          | some child => some (JSVal.mapC (assocSet entries seg child))
          | none => none) = some (JSVal.mapC (assocSet entries seg child))
        rw [hset]
      · show getPathSegs (assocGet (assocSet entries seg child) seg) (rest ++ [key]) = v
        rw [assocGet_assocSet]
        exact hget
    | undef => simp [getPathSegs, isObjLike] at h
    | null => simp [getPathSegs, isObjLike] at h
    | bool b =>
      exfalso
      have : getPathSegs (JSVal.bool b) (seg :: rest) = JSVal.undef := by
        show getPathSegs (getMember (JSVal.bool b) seg) rest = JSVal.undef
        rw [show getMember (JSVal.bool b) seg = JSVal.undef from rfl]
        exact @getPathSegs_nullish JSVal.undef rfl rest
      rw [this] at h
      simp [isObjLike] at h
    | num n =>
      exfalso
      have : getPathSegs (JSVal.num n) (seg :: rest) = JSVal.undef := by
        show getPathSegs (getMember (JSVal.num n) seg) rest = JSVal.undef
        rw [show getMember (JSVal.num n) seg = JSVal.undef from rfl]
        exact @getPathSegs_nullish JSVal.undef rfl rest
      rw [this] at h
      simp [isObjLike] at h
    | negInf =>
      exfalso
      have : getPathSegs JSVal.negInf (seg :: rest) = JSVal.undef := by
        show getPathSegs (getMember JSVal.negInf seg) rest = JSVal.undef
        rw [show getMember JSVal.negInf seg = JSVal.undef from rfl]
        exact @getPathSegs_nullish JSVal.undef rfl rest
      rw [this] at h
      simp [isObjLike] at h
    | posInf =>
      exfalso
      have : getPathSegs JSVal.posInf (seg :: rest) = JSVal.undef := by
        show getPathSegs (getMember JSVal.posInf seg) rest = JSVal.undef
        rw [show getMember JSVal.posInf seg = JSVal.undef from rfl]
        exact @getPathSegs_nullish JSVal.undef rfl rest
      rw [this] at h
      simp [isObjLike] at h
    | str t =>
      exfalso
      have : getPathSegs (JSVal.str t) (seg :: rest) = JSVal.undef := by
        show getPathSegs (getMember (JSVal.str t) seg) rest = JSVal.undef
        rw [show getMember (JSVal.str t) seg = JSVal.undef from rfl]
        exact @getPathSegs_nullish JSVal.undef rfl rest
      rw [this] at h
      simp [isObjLike] at h
    | arr l =>
      exfalso
      have : getPathSegs (JSVal.arr l) (seg :: rest) = JSVal.undef := by
        show getPathSegs (getMember (JSVal.arr l) seg) rest = JSVal.undef
        rw [show getMember (JSVal.arr l) seg = JSVal.undef from rfl]
        exact @getPathSegs_nullish JSVal.undef rfl rest
      rw [this] at h
      simp [isObjLike] at h
    | ref i =>
      exfalso
      have : getPathSegs (JSVal.ref i) (seg :: rest) = JSVal.undef := by
        show getPathSegs (getMember (JSVal.ref i) seg) rest = JSVal.undef
        rw [show getMember (JSVal.ref i) seg = JSVal.undef from rfl]
        exact @getPathSegs_nullish JSVal.undef rfl rest
      rw [this] at h
      simp [isObjLike] at h

theorem setPathSegs_nullish_none (segs : List String) :
    ∀ (root : JSVal) (key : String) (v : JSVal),
      isNullish (getPathSegs root segs) = true →
      setPathSegs root segs key v = none := by
  induction segs with
  | nil =>
    intro root key v h
    cases root with
    | undef => rfl
    | null => rfl
    | bool b => simp [getPathSegs, isNullish] at h
    | num n => simp [getPathSegs, isNullish] at h
    | negInf => simp [getPathSegs, isNullish] at h
    | posInf => simp [getPathSegs, isNullish] at h
    | str t => simp [getPathSegs, isNullish] at h
    | obj f => simp [getPathSegs, isNullish] at h
    | arr l => simp [getPathSegs, isNullish] at h
    | mapC e => simp [getPathSegs, isNullish] at h
    | ref i => simp [getPathSegs, isNullish] at h
  | cons seg rest ih =>
    intro root key v h
    cases root with
    | undef => rfl
    | null => rfl
    | obj fields =>
      have h' : isNullish (getPathSegs (assocGet fields seg) rest) = true := h
      show (match setPathSegs (assocGet fields seg) rest key v with
        | some child => some (JSVal.obj (assocSet fields seg child))
        | none => none) = none
      rw [ih (assocGet fields seg) key v h']
    | mapC entries =>
      have h' : isNullish (getPathSegs (assocGet entries seg) rest) = true := h
      show (match setPathSegs (assocGet entries seg) rest key v with
        | some child => some (JSVal.mapC (assocSet entries seg child))
        | none => none) = none
      rw [ih (assocGet entries seg) key v h']
    | bool b => rfl
    | num n => rfl
    | negInf => rfl
    | posInf => rfl
    | str t => rfl
    | arr l => rfl
    | ref i => rfl

theorem jsStrictEq_undef_left (a : JSVal) :
    jsStrictEq JSVal.undef a = true → a = JSVal.undef := by
  cases a <;> simp [jsStrictEq]

theorem jsStrictEq_undef_right (a : JSVal) :
    jsStrictEq a JSVal.undef = true → a = JSVal.undef := by
  cases a <;> simp [jsStrictEq]

theorem setPath_some_form (o : JSVal) (p : String) (v : JSVal)
    (lead : List String) (key : String)
    (h : splitLast (pathSegments p) = some (lead, key)) :
    setPath o p v =
      if lead = [] ∨ lead = [""] then setMember o key v
      else setPathSegs o lead key v := by
  unfold setPath
  rw [h]

theorem resolvedContainer_some (o : JSVal) (p : String)
    (lead : List String) (key : String)
    (h : splitLast (pathSegments p) = some (lead, key)) :
    resolvedContainer o p =
      if lead = [] ∨ lead = [""] then o else getPathSegs o lead := by
  unfold resolvedContainer
  rw [h]

/-! ## Claim theorems -/

/-- C1: `getPath(root, path)` splits the path on `'.'` and traverses the
segments in order; at each step the next value is `current.get(segment)`
whenever the current value exposes a callable `get` member, and the direct
member lookup `current[segment]` otherwise (a nullish current value stops
the traversal, per C2); the result is the value reached after consuming all
segments.  Stated as a refinement: the source `getPath` coincides with
`specResolve`, the fold written from the spec's description, and on every
non-nullish value the spec step is exactly the callable-`get` / member-lookup
dichotomy. -/
theorem getPath_refines_spec_resolve :
    (∀ (o : JSVal) (p : String), getPath o p = specResolve o p)
    ∧ (∀ (cur : JSVal) (seg : String), isNullish cur = false →
        specStep cur seg =
          if hasCallableGet cur then callGet cur seg else getMember cur seg) := by
  constructor
  · intro o p
    exact getPathSegs_eq_foldl (pathSegments p) o
  · intro cur seg h
    simp [specStep, h]

/-- Witness for C1 at concrete inputs: a map-like container on a concrete
path, and the dichotomy step on a plain object. -/
theorem getPath_refines_spec_resolve_witness :
    getPath (JSVal.mapC [("x", JSVal.num 1)]) "x"
      = specResolve (JSVal.mapC [("x", JSVal.num 1)]) "x"
    ∧ specStep (JSVal.obj [("a", JSVal.num 2)]) "a"
      = (if hasCallableGet (JSVal.obj [("a", JSVal.num 2)]) then
          callGet (JSVal.obj [("a", JSVal.num 2)]) "a"
        else getMember (JSVal.obj [("a", JSVal.num 2)]) "a") :=
  ⟨getPath_refines_spec_resolve.1 (JSVal.mapC [("x", JSVal.num 1)]) "x",
   getPath_refines_spec_resolve.2 (JSVal.obj [("a", JSVal.num 2)]) "a" rfl⟩

/-- C2: when the value reached after some prefix of the segments is `null`
or `undefined`, `getPath` returns that terminal nullish value; resolution is
total (no fault), and the overall result is nullish. -/
theorem getPath_nullish_propagation (o : JSVal) (p : String)
    (pre post : List String) (hsplit : pathSegments p = pre ++ post)
    (hnull : isNullish (getPathSegs o pre) = true) :
    getPath o p = getPathSegs o pre ∧ isNullish (getPath o p) = true := by
  have h : getPath o p = getPathSegs (getPathSegs o pre) post := by
    rw [getPath, hsplit, getPathSegs_append]
  rw [getPathSegs_nullish hnull post] at h
  exact ⟨h, by rw [h]; exact hnull⟩

/-- Witness for C2: `{a: null}` resolved through `'a.b'` yields `null`. -/
theorem getPath_nullish_propagation_witness :
    getPath (JSVal.obj [("a", JSVal.null)]) "a.b" = JSVal.null
    ∧ isNullish (getPath (JSVal.obj [("a", JSVal.null)]) "a.b") = true := by
  have h := getPath_nullish_propagation (JSVal.obj [("a", JSVal.null)]) "a.b"
    ["a"] ["b"] rfl rfl
  exact ⟨h.1.trans rfl, h.2⟩

/-- C3 counterexample: for the path `".a"` on the object `{"": {}}`, the
container in the claim's sense — all segments but the last, here `[""]` —
resolves to an existing object, and `setPath` succeeds, yet reading the same
path back yields `undefined`, not the written value: `setPath` writes the
key on the root (the string before the last dot is empty), while `getPath`
traverses the empty-named member. -/
theorem setPath_roundtrip_counterexample :
    isObjLike (getPathSegs (JSVal.obj [("", JSVal.obj [])])
        ((pathSegments ".a").dropLast)) = true
    ∧ setPath (JSVal.obj [("", JSVal.obj [])]) ".a" (JSVal.num 2)
        = some (JSVal.obj [("", JSVal.obj []), ("a", JSVal.num 2)])
    ∧ getPath (JSVal.obj [("", JSVal.obj []), ("a", JSVal.num 2)]) ".a"
        = JSVal.undef
    ∧ JSVal.undef ≠ JSVal.num 2 := by
  refine ⟨rfl, rfl, rfl, ?_⟩
  intro h
  exact JSVal.noConfusion h

/-- C3 (amended): for every path that is not a lone leading dot followed by
a dot-free key (the degenerate `".key"` shape of the counterexample), if the
container — all segments but the last — resolves to an existing object
(plain or map-like), then `setPath` succeeds and `getPath` on the same path
returns the written value. -/
theorem setPath_roundtrip (o : JSVal) (p : String) (v : JSVal)
    (hform : (pathSegments p).dropLast ≠ [""])
    (hobj : isObjLike (getPathSegs o ((pathSegments p).dropLast)) = true) :
    ∃ o', setPath o p v = some o' ∧ getPath o' p = v := by
  obtain ⟨lead, last, hsl⟩ :=
    splitLast_of_ne_nil (pathSegments p) (pathSegments_ne_nil p)
  have happ : pathSegments p = lead ++ [last] := splitLast_eq _ lead last hsl
  have hdrop : (pathSegments p).dropLast = lead := by
    rw [happ]
    simp
  rw [hdrop] at hform hobj
  by_cases hl : lead = []
  · subst hl
    obtain ⟨o', hset, hget⟩ := setPathSegs_roundtrip [] o last v hobj
    refine ⟨o', ?_, ?_⟩
    · rw [setPath_some_form o p v [] last hsl, if_pos (Or.inl rfl)]
      exact hset
    · rw [getPath, happ]
      exact hget
  · have hne : ¬(lead = [] ∨ lead = [""]) := by
      intro hc
      cases hc with
      | inl h => exact hl h
      | inr h => exact hform h
    obtain ⟨o', hset, hget⟩ := setPathSegs_roundtrip lead o last v hobj
    refine ⟨o', ?_, ?_⟩
    · rw [setPath_some_form o p v lead last hsl, if_neg hne]
      exact hset
    · rw [getPath, happ]
      exact hget

/-- Witness for the amended C3, at the spec's own example `{a: {b: 1}}`,
`setPath(o, 'a.b', 2)` then `getPath(o, 'a.b')`. -/
theorem setPath_roundtrip_witness :
    ∃ o', setPath (JSVal.obj [("a", JSVal.obj [("b", JSVal.num 1)])]) "a.b"
        (JSVal.num 2) = some o'
      ∧ getPath o' "a.b" = JSVal.num 2 :=
  setPath_roundtrip (JSVal.obj [("a", JSVal.obj [("b", JSVal.num 1)])]) "a.b"
    (JSVal.num 2) (by decide) rfl

/-- C5: when the container `setPath` assigns into — the root when the part
of the path before the last dot is empty, else the `getPath`-resolution of
that part — is `null` or `undefined`, `setPath` faults (returns `none`,
modelling the thrown member-access `TypeError`) and performs no update: no
intermediate containers are ever created. -/
theorem setPath_nullish_container_faults (o : JSVal) (p : String) (v : JSVal)
    (h : isNullish (resolvedContainer o p) = true) :
    setPath o p v = none := by
  obtain ⟨lead, key, hsl⟩ :=
    splitLast_of_ne_nil (pathSegments p) (pathSegments_ne_nil p)
  rw [setPath_some_form o p v lead key hsl]
  rw [resolvedContainer_some o p lead key hsl] at h
  by_cases hc : lead = [] ∨ lead = [""]
  · rw [if_pos hc] at h ⊢
    cases o with
    | undef => rfl
    | null => rfl
    | bool b => simp [isNullish] at h
    | num n => simp [isNullish] at h
    | negInf => simp [isNullish] at h
    | posInf => simp [isNullish] at h
    | str s => simp [isNullish] at h
    | obj f => simp [isNullish] at h
    | arr l => simp [isNullish] at h
    | mapC e => simp [isNullish] at h
    | ref i => simp [isNullish] at h
  · rw [if_neg hc] at h ⊢
    exact setPathSegs_nullish_none lead o key v h

/-- Witness for C5: `{a: null}` with path `'a.b'` — the container `a`
resolves to `null` and the write faults. -/
theorem setPath_nullish_container_faults_witness :
    setPath (JSVal.obj [("a", JSVal.null)]) "a.b" (JSVal.num 1) = none :=
  setPath_nullish_container_faults (JSVal.obj [("a", JSVal.null)]) "a.b"
    (JSVal.num 1) rfl

/-- C4: a macro definition with no getter yields `undefined` on every read
(with no side effect — reads in this model are pure); one with no setter
faults on every write (the "no setter" `TypeError`, modelled as `none`); a
definition with neither does both.  A bare getter function normalizes to a
getter with no setter, so its writes fault as well. -/
theorem accessor_missing_getter_setter (key : String) (self v : JSVal)
    (getterOpt : Option (JSVal → String → JSVal))
    (setterOpt : Option (JSVal → String → JSVal → JSVal))
    (g : JSVal → String → JSVal) :
    readProp (synthesizeDesc (.descriptor none setterOpt) key) self = JSVal.undef
    ∧ writeProp (synthesizeDesc (.descriptor getterOpt none) key) self v = none
    ∧ writeProp (synthesizeDesc (.getterFn g) key) self v = none
    ∧ readProp (synthesizeDesc (.descriptor none none) key) self = JSVal.undef
    ∧ writeProp (synthesizeDesc (.descriptor none none) key) self v = none :=
  ⟨rfl, rfl, rfl, rfl, rfl⟩

/-- C7: a read through `sort(path, fn)` or `sortBy(path, key, asc)` returns
the sorted copy produced by `slice().sort(fn)`, and the source array reached
by resolving the path keeps its content and element order: the in-place
`sort` call mutates only the `slice` copy. -/
theorem sort_macro_copies (o : JSVal) (p : String) (cmp : JSVal → JSVal → Int)
    (key : String) (asc : Bool) (l : List JSVal)
    (h : getPath o p = JSVal.arr l) :
    sortMacro o p cmp = some (JSVal.arr (sortList cmp l))
    ∧ (sortMacroEffect cmp l).2 = l
    ∧ sortByMacro o p key asc = some (JSVal.arr (sortList (sortByCmp key asc) l))
    ∧ (sortMacroEffect (sortByCmp key asc) l).2 = l := by
  have hga : getArray o p = JSVal.arr l := by
    unfold getArray
    rw [h]
    rfl
  have h1 : ∀ c : JSVal → JSVal → Int,
      sortMacro o p c = some (JSVal.arr (sortList c l)) := by
    intro c
    unfold sortMacro
    rw [hga]
    rfl
  exact ⟨h1 cmp, rfl, h1 (sortByCmp key asc), rfl⟩

/-- Witness for C7: sorting `{foo: [3, 1, 2]}` by a numeric comparator. -/
theorem sort_macro_copies_witness :
    sortMacro (JSVal.obj [("foo", JSVal.arr [JSVal.num 3, JSVal.num 1, JSVal.num 2])])
        "foo" (fun a b => if jsLt a b then (-1 : Int) else if jsLt b a then 1 else 0)
      = some (JSVal.arr (sortList
          (fun a b => if jsLt a b then (-1 : Int) else if jsLt b a then 1 else 0)
          [JSVal.num 3, JSVal.num 1, JSVal.num 2]))
    ∧ (sortMacroEffect
        (fun a b => if jsLt a b then (-1 : Int) else if jsLt b a then 1 else 0)
        [JSVal.num 3, JSVal.num 1, JSVal.num 2]).2
      = [JSVal.num 3, JSVal.num 1, JSVal.num 2] :=
  ⟨(sort_macro_copies
      (JSVal.obj [("foo", JSVal.arr [JSVal.num 3, JSVal.num 1, JSVal.num 2])]) "foo"
      (fun a b => if jsLt a b then (-1 : Int) else if jsLt b a then 1 else 0)
      "k" true [JSVal.num 3, JSVal.num 1, JSVal.num 2] rfl).1,
   (sort_macro_copies
      (JSVal.obj [("foo", JSVal.arr [JSVal.num 3, JSVal.num 1, JSVal.num 2])]) "foo"
      (fun a b => if jsLt a b then (-1 : Int) else if jsLt b a then 1 else 0)
      "k" true [JSVal.num 3, JSVal.num 1, JSVal.num 2] rfl).2.1⟩

/-- C8: a read through `reads(path, defaultValue)` returns the resolved
value unchanged when it is not nullish; when it is nullish it returns the
default — invoking the default anew on each read when it is a function, so
two successive reads with the `() => []` default allocate two distinct
empty arrays (fresh references, not a shared one). -/
theorem reads_default_semantics (o : JSVal) (p : String) (h : JSHeap)
    (v : JSVal) (f : JSHeap → JSVal × JSHeap) (dflt : ReadsDefault) :
    (isNullish (getPath o p) = false → readsRead p dflt o h = (getPath o p, h))
    ∧ (isNullish (getPath o p) = true →
        readsRead p (.value v) o h = (v, h))
    ∧ (isNullish (getPath o p) = true →
        readsRead p (.fnDefault f) o h = f h)
    ∧ (isNullish (getPath o p) = true →
        (readsRead p (.fnDefault freshEmptyArray) o h).1 = JSVal.ref h.next
        ∧ (readsRead p (.fnDefault freshEmptyArray) o
            ((readsRead p (.fnDefault freshEmptyArray) o h).2)).1
          = JSVal.ref (h.next + 1)
        ∧ (readsRead p (.fnDefault freshEmptyArray) o h).1
          ≠ (readsRead p (.fnDefault freshEmptyArray) o
              ((readsRead p (.fnDefault freshEmptyArray) o h).2)).1
        ∧ heapFind ((readsRead p (.fnDefault freshEmptyArray) o
            ((readsRead p (.fnDefault freshEmptyArray) o h).2)).2).entries h.next
          = some (JSVal.arr [])
        ∧ heapFind ((readsRead p (.fnDefault freshEmptyArray) o
            ((readsRead p (.fnDefault freshEmptyArray) o h).2)).2).entries
            (h.next + 1)
          = some (JSVal.arr [])) := by
  refine ⟨?_, ?_, ?_, ?_⟩
  · intro hn
    simp [readsRead, hn]
  · intro hn
    simp [readsRead, hn]
  · intro hn
    simp [readsRead, hn]
  · intro hn
    have hne : h.next + 1 ≠ h.next := by omega
    refine ⟨?_, ?_, ?_, ?_, ?_⟩
    · simp [readsRead, hn, freshEmptyArray, heapAlloc]
    · simp [readsRead, hn, freshEmptyArray, heapAlloc]
    · simp only [readsRead, hn, if_pos, freshEmptyArray, heapAlloc]
      intro hEq
      have : h.next = h.next + 1 := by
        injection hEq
      omega
    · simp [readsRead, hn, freshEmptyArray, heapAlloc, heapFind, hne]
    · simp [readsRead, hn, freshEmptyArray, heapAlloc, heapFind, hne]

/-- Witness for C8: an object with no member `x` (so `getPath` is nullish),
read twice with the `() => []` function default from an empty heap — the
two reads return distinct references. -/
theorem reads_default_semantics_witness :
    readsRead "x" (ReadsDefault.value (JSVal.str "d")) (JSVal.obj []) ⟨0, []⟩
      = (JSVal.str "d", (⟨0, []⟩ : JSHeap))
    ∧ (readsRead "x" (ReadsDefault.fnDefault freshEmptyArray) (JSVal.obj [])
        ⟨0, []⟩).1
      ≠ (readsRead "x" (ReadsDefault.fnDefault freshEmptyArray) (JSVal.obj [])
          ((readsRead "x" (ReadsDefault.fnDefault freshEmptyArray) (JSVal.obj [])
            ⟨0, []⟩).2)).1 :=
  ⟨(reads_default_semantics (JSVal.obj []) "x" ⟨0, []⟩ (JSVal.str "d")
      freshEmptyArray (ReadsDefault.value (JSVal.str "d"))).2.1 rfl,
   ((reads_default_semantics (JSVal.obj []) "x" ⟨0, []⟩ (JSVal.str "d")
      freshEmptyArray (ReadsDefault.value (JSVal.str "d"))).2.2.2 rfl).2.2.1⟩

/-- C6 counterexample: `collect` does not treat a nullish resolved path as
an empty array — with `{empty: null}`, `collect('empty')` yields `[null]`,
which is neither `[]` nor `[[]]`: the nullish value appears verbatim in the
result (`collect` goes through `getPaths`, not `getArray`). -/
theorem collect_nullish_counterexample :
    collectMacro (JSVal.obj [("empty", JSVal.null)]) ["empty"]
      = JSVal.arr [JSVal.null]
    ∧ JSVal.arr [JSVal.null] ≠ JSVal.arr []
    ∧ JSVal.arr [JSVal.null] ≠ JSVal.arr [JSVal.arr []] := by
  refine ⟨rfl, by simp, by simp⟩

/-- C6 (amended): every array macro other than `collect` — `diff`,
`intersect`, `union`, `unique`, `uniqueBy`, `filter`, `filterBy`, `map`,
`mapBy`, `max`, `min`, `sort`, `sortBy`, `sum` — treats a `null`/`undefined`
resolved path as an empty array and returns its normal result rather than
failing (`max`/`min` return the zero-argument extrema); the operand
conversion is `getArray`, which maps a nullish resolved value to `[]`.
`collect` instead returns the resolved values verbatim, nullish included,
and does not fail either. -/
theorem array_macros_nullish_as_empty (o : JSVal) (p : String)
    (key : String) (asc : Bool) (fn : JSVal → Bool) (f : JSVal → JSVal)
    (cmp : JSVal → JSVal → Int) (value : JSVal) (ps : List String)
    (hn : isNullish (getPath o p) = true) :
    getArray o p = JSVal.arr []
    ∧ getArrays o ps = ps.map (fun q => getArray o q)
    ∧ filterMacro o p fn = some (JSVal.arr [])
    ∧ filterByMacro o p key value = some (JSVal.arr [])
    ∧ mapMacro o p f = some (JSVal.arr [])
    ∧ mapByMacro o p key = some (JSVal.arr [])
    ∧ maxMacro o p = some JSVal.negInf
    ∧ minMacro o p = some JSVal.posInf
    ∧ sortMacro o p cmp = some (JSVal.arr [])
    ∧ sortByMacro o p key asc = some (JSVal.arr [])
    ∧ sumMacro o p = some (JSVal.num 0)
    ∧ uniqueMacro o p = some (JSVal.arr [])
    ∧ uniqueByMacro o p key = some (JSVal.arr [])
    ∧ unionMacro o [p] = some (JSVal.arr [])
    ∧ diffMacro o [p] = some (JSVal.arr [])
    ∧ intersectMacro o [p] = some (JSVal.arr [])
    ∧ collectMacro o [p] = JSVal.arr [getPath o p] := by
  have hga : getArray o p = JSVal.arr [] := by
    unfold getArray
    generalize hv : getPath o p = w at hn ⊢
    cases w <;> simp_all [isNullish, truthy]
  have hsort : ∀ c : JSVal → JSVal → Int,
      sortMacro o p c = some (JSVal.arr []) := by
    intro c
    unfold sortMacro
    rw [hga]
    rfl
  have hunion : unionMacro o [p] = some (JSVal.arr []) := by
    unfold unionMacro getArrayLists
    rw [hga]
    rfl
  have hfby : filterByMacro o p key value = some (JSVal.arr []) := by
    unfold filterByMacro
    by_cases hb : jsStrictEq value JSVal.undef = true
    · rw [hb]
      unfold filterMacro
      rw [hga]
      rfl
    · rw [Bool.not_eq_true] at hb
      rw [hb]
      unfold filterMacro
      rw [hga]
      rfl
  refine ⟨hga, rfl, ?_, hfby, ?_, ?_, ?_, ?_, hsort cmp, hsort (sortByCmp key asc),
    ?_, hunion, ?_, hunion, ?_, ?_, rfl⟩
  · unfold filterMacro
    rw [hga]
    rfl
  · unfold mapMacro
    rw [hga]
    rfl
  · unfold mapByMacro mapMacro
    rw [hga]
    rfl
  · unfold maxMacro
    rw [hga]
    rfl
  · unfold minMacro
    rw [hga]
    rfl
  · unfold sumMacro
    rw [hga]
    rfl
  · unfold uniqueByMacro
    rw [hga]
    rfl
  · unfold diffMacro getArrayLists
    rw [hga]
    rfl
  · unfold intersectMacro getArrayLists
    rw [hga]
    rfl

/-- Witness for the amended C6 at `{empty: null}` with concrete function
arguments. -/
theorem array_macros_nullish_as_empty_witness :
    filterMacro (JSVal.obj [("empty", JSVal.null)]) "empty" (fun _ => true)
      = some (JSVal.arr [])
    ∧ maxMacro (JSVal.obj [("empty", JSVal.null)]) "empty" = some JSVal.negInf
    ∧ sumMacro (JSVal.obj [("empty", JSVal.null)]) "empty" = some (JSVal.num 0)
    ∧ uniqueMacro (JSVal.obj [("empty", JSVal.null)]) "empty"
      = some (JSVal.arr []) := by
  have h := array_macros_nullish_as_empty (JSVal.obj [("empty", JSVal.null)])
    "empty" "k" true (fun _ => true) (fun v => v)
    (fun _ _ => (0 : Int)) (JSVal.num 1) [] rfl
  exact ⟨h.2.2.1, h.2.2.2.2.2.2.1, h.2.2.2.2.2.2.2.2.2.2.1,
    h.2.2.2.2.2.2.2.2.2.2.2.1⟩

/-- C9: every multi-path macro resolves each operand with the path resolver
(`getPaths` maps `getPath` over the paths; the array ones go through
`getArray`, which also calls `getPath`), and `and`/`or` are the left folds
of JavaScript `&&`/`||` over the resolved values in path order, with seeds
`true`/`false`.  In particular a dotted path such as `'a.b'` resolves
through nested objects, where a single direct member lookup of the literal
name `"a.b"` would yield `undefined`. -/
theorem multipath_macros_resolver :
    (∀ (o : JSVal) (ps : List String),
      getPaths o ps = ps.map (fun q => getPath o q)
      ∧ andMacro o ps = (ps.map (fun q => getPath o q)).foldl jsAnd (JSVal.bool true)
      ∧ orMacro o ps = (ps.map (fun q => getPath o q)).foldl jsOr (JSVal.bool false)
      ∧ collectMacro o ps = JSVal.arr (ps.map (fun q => getPath o q))
      ∧ getArrays o ps = ps.map (fun q =>
          if truthy (getPath o q) then getPath o q else JSVal.arr []))
    ∧ getPath (JSVal.obj [("a", JSVal.obj [("b", JSVal.bool true)])]) "a.b"
      = JSVal.bool true
    ∧ getMember (JSVal.obj [("a", JSVal.obj [("b", JSVal.bool true)])]) "a.b"
      = JSVal.undef
    ∧ andMacro (JSVal.obj [("a", JSVal.obj [("b", JSVal.bool true)])]) ["a.b"]
      = JSVal.bool true
    ∧ orMacro (JSVal.obj [("a", JSVal.obj [("b", JSVal.bool true)])]) ["a.b"]
      = JSVal.bool true :=
  ⟨fun o ps => ⟨rfl, rfl, rfl, rfl, rfl⟩, rfl, rfl, rfl, rfl⟩

/-- C10: `filterBy(path, key, value)` selects the equality filter
`v[key] === value` exactly when `value` is not `undefined`; passing
`undefined` explicitly lands in the same truthiness filter as the
two-argument call (an omitted argument reaches the body as `undefined`), so
no `filterBy` call can select elements whose key value is exactly
`undefined`: the equality filter rejects them because `value ≠ undefined`,
and the truthiness filter rejects them because `undefined` is falsy. -/
theorem filterBy_undefined_dichotomy (o : JSVal) (p : String) (k : String) :
    (filterByMacro o p k JSVal.undef
      = filterMacro o p (fun v => truthy (getMember v k)))
    ∧ (∀ value : JSVal, value ≠ JSVal.undef →
        filterByMacro o p k value
          = filterMacro o p (fun v => jsStrictEq (getMember v k) value))
    ∧ (∀ (value : JSVal) (l : List JSVal) (v : JSVal),
        filterByMacro o p k value = some (JSVal.arr l) → v ∈ l →
        getMember v k ≠ JSVal.undef) := by
  refine ⟨rfl, ?_, ?_⟩
  · intro value hv
    have hb : jsStrictEq value JSVal.undef = false := by
      cases hb : jsStrictEq value JSVal.undef
      · rfl
      · exact absurd (jsStrictEq_undef_right value hb) hv
    unfold filterByMacro
    rw [hb]
    rfl
  · intro value l v hres hmem
    unfold filterByMacro at hres
    by_cases hb : jsStrictEq value JSVal.undef = true
    · rw [hb] at hres
      unfold filterMacro at hres
      cases ha : asArrayList (getArray o p) with
      | none => rw [ha] at hres; simp at hres
      | some l0 =>
        rw [ha] at hres
        simp only [Option.map_some'] at hres
        injection hres with hres2
        injection hres2 with hres3
        rw [← hres3] at hmem
        have hpred := (List.mem_filter.mp hmem).2
        intro he
        rw [he] at hpred
        simp [truthy] at hpred
    · rw [Bool.not_eq_true] at hb
      rw [hb] at hres
      unfold filterMacro at hres
      cases ha : asArrayList (getArray o p) with
      | none => rw [ha] at hres; simp at hres
      | some l0 =>
        rw [ha] at hres
        simp only [Option.map_some'] at hres
        injection hres with hres2
        injection hres2 with hres3
        rw [← hres3] at hmem
        have hpred := (List.mem_filter.mp hmem).2
        intro he
        rw [he] at hpred
        have := jsStrictEq_undef_left value hpred
        rw [this] at hb
        simp [jsStrictEq] at hb

/-- Witness for C10 on a concrete array of objects: passing `undefined`
explicitly is the truthiness filter, and a selected element of an equality
filter has a non-`undefined` key value. -/
theorem filterBy_undefined_dichotomy_witness :
    filterByMacro
        (JSVal.obj [("people",
          JSVal.arr [JSVal.obj [("k", JSVal.num 1)], JSVal.obj []])])
        "people" "k" JSVal.undef
      = filterMacro
          (JSVal.obj [("people",
            JSVal.arr [JSVal.obj [("k", JSVal.num 1)], JSVal.obj []])])
          "people" (fun v => truthy (getMember v "k"))
    ∧ getMember (JSVal.obj [("k", JSVal.num 1)]) "k" ≠ JSVal.undef :=
  ⟨(filterBy_undefined_dichotomy
      (JSVal.obj [("people",
        JSVal.arr [JSVal.obj [("k", JSVal.num 1)], JSVal.obj []])])
      "people" "k").1,
   (filterBy_undefined_dichotomy
      (JSVal.obj [("people",
        JSVal.arr [JSVal.obj [("k", JSVal.num 1)], JSVal.obj []])])
      "people" "k").2.2 (JSVal.num 1) [JSVal.obj [("k", JSVal.num 1)]]
      (JSVal.obj [("k", JSVal.num 1)]) rfl (by simp)⟩
